import Mathlib

/-!
Verification of the package-manifest and reconciliation engine of
`pywamgr.py` (the Python WoW addon manager).

The embedding is shallow.  Filesystem paths are modelled as lists of path
components: the Python source manipulates path strings joined by `/`
(`addons_dir + name`, `os.path.dirname`, zip entry names), and a path
string corresponds to its component list.  The content digest
(`hashlib.sha256` in the source) is an abstract parameter
`hash : String → String`: the development depends only on how the program
stores and compares digests, never on the concrete hash function.
Fallible operations return `Except`, carrying the state at the point the
Python exception was raised.
-/

deriving instance DecidableEq for Except

namespace Pywamgr

/-- A filesystem path, as its list of components. -/
abbrev FPath := List String

/-- `underB d p` holds when `p` lies strictly inside the directory `d`,
i.e. `d` is a proper ancestor of `p`. -/
def underB (d p : FPath) : Bool := d.isPrefixOf p && decide (d.length < p.length)

/-- POSIX-style resolution of `..` and `.` components, exactly as the
operating system's path lookup performs it on every file operation: the
path strings `a.lua` and `./a.lua` under the same root denote the same
on-disk file.  The model's filesystem is keyed by resolved paths, and
every operation resolves its argument first. -/
def normalize (p : FPath) : FPath :=
  p.foldl (fun acc c =>
    if c = ".." then acc.dropLast else if c = "." then acc else acc ++ [c]) []

/-- The install-root filesystem: regular files (resolved path paired with
content) and the set of existing directories (resolved paths). -/
structure FS where
  files : List (FPath × String)
  dirs : List FPath
deriving DecidableEq

/-- Content of the regular file the path `p` resolves to, if one exists. -/
def getFile (fs : FS) (p : FPath) : Option String :=
  (fs.files.find? (fun e => decide (e.1 = normalize p))).map (·.2)

/-- `open(p, 'wb')` followed by a complete write of `c`: creates or
overwrites the regular file the path `p` resolves to. -/
def setFile (fs : FS) (p : FPath) (c : String) : FS :=
  { fs with files :=
      (normalize p, c) :: fs.files.filter (fun e => decide (¬ e.1 = normalize p)) }

/-- `os.remove(p)`, with the source's `except FileNotFoundError: pass`:
deletes the file `p` resolves to when present, does nothing otherwise. -/
def eraseFile (fs : FS) (p : FPath) : FS :=
  { fs with files := fs.files.filter (fun e => decide (¬ e.1 = normalize p)) }

/-- Whether a regular file exists at the path `p` resolves to. -/
def isFileB (fs : FS) (p : FPath) : Bool := (getFile fs p).isSome

/-- `os.path.isdir(p)`: whether a directory exists at the path `p`
resolves to. -/
def isDirB (fs : FS) (p : FPath) : Bool := decide (normalize p ∈ fs.dirs)

/-- Create one directory if it does not exist yet. -/
def addDir (fs : FS) (d : FPath) : FS :=
  if normalize d ∈ fs.dirs then fs
  else { fs with dirs := normalize d :: fs.dirs }

/-- Helper for `mkdirs`: create the chain of directories extending
`done` by the remaining components, stopping at the first component that
already exists as a regular file (where the real `os.makedirs` raises;
the source wraps the call in `except: pass`). -/
def mkdirsGo (fs : FS) (done : FPath) : List String → FS
  | [] => fs
  | c :: rest =>
    let p := done ++ [c]
    if isFileB fs p then fs
    else mkdirsGo (addDir fs p) p rest

/-- Model of `os.makedirs(target)` under the source's `except: pass`. -/
def mkdirs (fs : FS) (target : FPath) : FS := mkdirsGo fs [] target

/-- The per-addon cache directory `.cache/<addon>`: the plain-text
`VERSION` file and the gzipped JSON `MTREE` file (the manifest entry
list, in archive enumeration order). -/
structure CacheEntry where
  version : Option String
  mtree : Option (List (FPath × String))
deriving DecidableEq

/-- Whole-program state: the install-root filesystem plus the `.cache`
tree, one entry per addon whose cache directory exists. -/
structure PkgState where
  fs : FS
  cache : List (String × CacheEntry)
deriving DecidableEq

/-- The cache directory of `addon`, if it exists. -/
def cacheOf (st : PkgState) (addon : String) : Option CacheEntry :=
  (st.cache.find? (fun e => decide (e.1 = addon))).map (·.2)

/-- Content of `.cache/<addon>/VERSION`, if that file exists. -/
def versionOf (st : PkgState) (addon : String) : Option String :=
  (cacheOf st addon).bind (·.version)

/-- Content of `.cache/<addon>/MTREE`, if that file exists. -/
def mtreeOf (st : PkgState) (addon : String) : Option (List (FPath × String)) :=
  (cacheOf st addon).bind (·.mtree)

/-- Replace the cache directory of `addon` wholesale. -/
def setCache (addon : String) (ce : CacheEntry) (st : PkgState) : PkgState :=
  { st with cache := (addon, ce) :: st.cache.filter (fun e => decide (¬ e.1 = addon)) }

/-- The `VERSION` write of `update_addon` (`open(version_file, 'w')`
followed by `out.write(new_version)`): a direct in-place overwrite. -/
def setVersion (addon v : String) (st : PkgState) : PkgState :=
  setCache addon { (cacheOf st addon).getD ⟨none, none⟩ with version := some v } st

/-- The `MTREE` write of `update_addon` (`gzip.open(..., 'wt')` with
`json.dump`): a direct in-place overwrite. -/
def setMtree (addon : String) (m : List (FPath × String)) (st : PkgState) : PkgState :=
  setCache addon { (cacheOf st addon).getD ⟨none, none⟩ with mtree := some m } st

/-- `os.makedirs(cachepath)` under its `except: pass`. -/
def ensureCacheDir (addon : String) (st : PkgState) : PkgState :=
  match cacheOf st addon with
  | some _ => st
  | none => setCache addon ⟨none, none⟩ st

/-- `shutil.rmtree('.cache/' + addon)` in the case where the directory
exists (when it does not, the call raises). -/
def rmtreeCache (addon : String) (st : PkgState) : PkgState :=
  { st with cache := st.cache.filter (fun e => decide (¬ e.1 = addon)) }

/-- `check_addon` from the source: load the MTREE from the cache (a
missing cache file yields `False`); for every recorded entry, hash the
file at `addons_dir + name` and compare against the recorded digest; a
missing file or a mismatching digest yields `False`, short-circuiting. -/
def check_addon (hash : String → String) (addon : String) (addons_dir : FPath)
    (st : PkgState) : Bool :=
  match mtreeOf st addon with
  | none => false
  | some entries =>
    entries.all (fun e =>
      match getFile st.fs (addons_dir ++ e.1) with
      | none => false
      | some c => hash c == e.2)

/-- One `os.rmdir` attempt from the pruning loop of `remove_addon`: the
directory is removed when it is empty (no file and no other remaining
directory strictly inside it); for a non-empty directory the call raises
`OSError`, which the source ignores. -/
def rmdirStep (files : List (FPath × String)) (dirs : List FPath) (d : FPath) :
    List FPath :=
  if files.any (fun f => underB d f.1) || dirs.any (fun d2 => underB d d2) then dirs
  else dirs.filter (fun x => decide (¬ x = d))

/-- Visit order of `os.walk(addons_dir, topdown=False)`: children before
parents, i.e. strictly deeper directories first. -/
def deeperFirst (a b : FPath) : Prop := b.length ≤ a.length

instance : DecidableRel deeperFirst := fun a b => Nat.decLe b.length a.length

instance : IsTotal FPath deeperFirst :=
  ⟨fun a b => (Nat.le_total a.length b.length).symm⟩

instance : IsTrans FPath deeperFirst :=
  ⟨fun _ _ _ hab hbc => Nat.le_trans hbc hab⟩

/-- The directory-pruning loop of `remove_addon`: walk every directory
strictly below the install root bottom-up and try `os.rmdir` on each,
ignoring the `OSError` raised for non-empty ones.  The walk order is
modelled by sorting the directories deepest-first. -/
def pruneDirs (root : FPath) (fs : FS) : FS :=
  let walkOrder :=
    List.insertionSort deeperFirst (fs.dirs.filter (fun d => underB root d))
  { fs with dirs := walkOrder.foldl (rmdirStep fs.files) fs.dirs }

/-- `remove_addon` from the source: read the MTREE; when it is missing,
print an error and remove nothing; otherwise delete every listed file
(`os.remove`, tolerating `FileNotFoundError`) and prune now-empty
directories bottom-up under the install root.  The cache directory
itself is not touched here. -/
def remove_addon (addon : String) (addons_dir : FPath) (st : PkgState) : PkgState :=
  match mtreeOf st addon with
  | none => st
  | some entries =>
    let fs1 := entries.foldl (fun fs e => eraseFile fs (addons_dir ++ e.1)) st.fs
    { st with fs := pruneDirs addons_dir fs1 }

/-- One entry of the downloaded zip archive.  `name` is the entry name as
a component list; `isDir` marks pure-directory entries (names ending in
`/`).  `ioFail` injects a disk failure: writing this entry's bytes raises
`OSError` mid-write, leaving a truncated file. -/
structure ZEntry where
  name : FPath
  isDir : Bool
  content : String
  ioFail : Bool
deriving DecidableEq

/-- The bytes `z.open(name)` actually streams for a file-entry name:
Python's `zipfile` resolves a name string through its `NameToInfo`
dictionary, which `_RealGetContents` fills with `NameToInfo[filename] =
x` for every entry in turn — so when several entries share one name, the
LAST such entry wins on every lookup, even though `namelist()` yields the
name once per entry.  (A directory entry's name string ends in `/`, so it
never collides with a file-entry name.) -/
def lastContent (archive : List ZEntry) (n : FPath) : String :=
  ((archive.filter (fun e2 => decide (e2.name = n ∧ e2.isDir = false))).getLast?.map
    ZEntry.content).getD ""

/-- The extraction loop of `update_addon`, iterating `for name in
z.namelist()` with `archive` the full entry list (backing the
`NameToInfo` lookups): for each entry, `os.makedirs(dirname(path))` under
`except: pass`, skip if `isdir(path)`, otherwise stream `z.open(name)` —
the last entry with that name — to `addons_dir + name` while hashing it,
and append `[name, digest]` to the mtree being built.  There is no check
of any kind on the entry name.  On a failure, the partially written
filesystem is returned in the error. -/
def extractLoop (hash : String → String) (addons_dir : FPath)
    (archive : List ZEntry) :
    FS → List (FPath × String) → List ZEntry →
      Except FS (FS × List (FPath × String))
  | fs, acc, [] => .ok (fs, acc)
  | fs, acc, e :: es =>
    let p := addons_dir ++ e.name
    if e.isDir then
      let fs1 := mkdirs fs p
      if isDirB fs1 p then extractLoop hash addons_dir archive fs1 acc es
      else .error fs1
    else
      let fs1 := mkdirs fs p.dropLast
      if isDirB fs1 p then extractLoop hash addons_dir archive fs1 acc es
      else if isDirB fs1 p.dropLast then
        if e.ioFail then .error (setFile fs1 p "")
        else
          extractLoop hash addons_dir archive
            (setFile fs1 p (lastContent archive e.name))
            (acc ++ [(e.name, hash (lastContent archive e.name))]) es
      else .error fs1

/-- Extraction of a whole archive: run the namelist loop with the same
archive backing the `NameToInfo` lookups. -/
def extractArchive (hash : String → String) (addons_dir : FPath)
    (fs : FS) (acc : List (FPath × String)) (es : List ZEntry) :
    Except FS (FS × List (FPath × String)) :=
  extractLoop hash addons_dir es fs acc es

/-- Status printed by `update_addon` on success. -/
inductive UStatus where
  | upToDate
  | reinstalled
  | updated
  | installed
deriving DecidableEq

/-- Exception leaving `update_addon`. -/
inductive UErr where
  | fetchError
  | ioError
deriving DecidableEq

/-- Tail of `update_addon` after the version bookkeeping: rewrite the
`VERSION` file in place, download the archive, run the extraction loop,
and only then rewrite the `MTREE` file.  A failure inside the extraction
loop propagates with the `VERSION` file already rewritten and the
partially extracted files on disk; the `MTREE` write never happens in
that case. -/
def finishInstall (hash : String → String) (addon : String) (addons_dir : FPath)
    (status : UStatus) (newVersion : String) (archive : List ZEntry)
    (st : PkgState) : Except (UErr × PkgState) (UStatus × PkgState) :=
  let st1 := setVersion addon newVersion st
  match extractArchive hash addons_dir st1.fs [] archive with
  | .error fsPartial => .error (.ioError, { st1 with fs := fsPartial })
  | .ok (fs2, mtree) => .ok (status, setMtree addon mtree { st1 with fs := fs2 })

/-- `update_addon` from the source.  `remote` models
`get_curse_addon_data` plus the archive download: `none` when the fetch
or the scrape of the project page raises (that exception propagates to
the caller uncaught), otherwise the new version string and the archive.
Reading a present `VERSION` file selects the compare/verify path; a
missing one (`OSError`) selects the fresh-install path, which only
creates the cache directory and never removes old files. -/
def update_addon (hash : String → String) (addon : String) (addons_dir : FPath)
    (remote : Option (String × List ZEntry)) (st : PkgState) :
    Except (UErr × PkgState) (UStatus × PkgState) :=
  match remote with
  | none => .error (.fetchError, st)
  | some (newVersion, archive) =>
    match versionOf st addon with
    | some oldVersion =>
      if oldVersion = newVersion then
        if check_addon hash addon addons_dir st then
          .ok (.upToDate, st)
        else
          finishInstall hash addon addons_dir .reinstalled newVersion archive
            (remove_addon addon addons_dir st)
      else
        finishInstall hash addon addons_dir .updated newVersion archive
          (remove_addon addon addons_dir st)
    | none =>
      finishInstall hash addon addons_dir .installed newVersion archive
        (ensureCacheDir addon st)

/-- The `install`/`update` loop of `__main__`: for each requested addon,
append it to the tracked list when absent, then call `update_addon`.
The loop body has no exception handler, so a raise aborts the whole
batch: the error carries the per-addon statuses gathered so far, and the
remaining addons are never processed. -/
def installLoop (hash : String → String) (addons_dir : FPath)
    (remote : String → Option (String × List ZEntry)) :
    List String → List String → PkgState → List (String × UStatus) →
      Except (List (String × UStatus) × List String × PkgState)
        (List (String × UStatus) × List String × PkgState)
  | [], cfgAddons, st, acc => .ok (acc, cfgAddons, st)
  | a :: rest, cfgAddons, st, acc =>
    let cfg1 := if a ∈ cfgAddons then cfgAddons else cfgAddons ++ [a]
    match update_addon hash a addons_dir (remote a) st with
    | .error (_, st1) => .error (acc, cfg1, st1)
    | .ok (s, st1) => installLoop hash addons_dir remote rest cfg1 st1 (acc ++ [(a, s)])

/-- Outcome printed by one iteration of the `remove` loop. -/
inductive RStatus where
  | removed
  | notInstalled
deriving DecidableEq

/-- One iteration of the `remove` loop of `__main__`:
`cfg['addons'].remove(addon)` decides installedness (a `ValueError`
prints "not installed" and skips the addon); otherwise `remove_addon`
runs and then `shutil.rmtree('.cache/' + addon)` deletes the cache
directory — raising, and aborting the batch, when that directory does
not exist. -/
def removeStep (addon : String) (addons_dir : FPath) (cfgAddons : List String)
    (st : PkgState) :
    Except (List String × PkgState) (RStatus × List String × PkgState) :=
  if addon ∈ cfgAddons then
    let st1 := remove_addon addon addons_dir st
    match cacheOf st1 addon with
    | none => .error (cfgAddons.erase addon, st1)
    | some _ => .ok (.removed, cfgAddons.erase addon, rmtreeCache addon st1)
  else .ok (.notInstalled, cfgAddons, st)

/-- Final program state of an `update_addon` call, whether it raised or
returned. -/
def stateOfU : Except (UErr × PkgState) (UStatus × PkgState) → PkgState
  | .error (_, st) => st
  | .ok (_, st) => st

/-- Whether an `update_addon` call returned without raising. -/
def okU : Except (UErr × PkgState) (UStatus × PkgState) → Bool
  | .error _ => false
  | .ok _ => true

/-- Whether the install/update batch was aborted by an uncaught
exception. -/
def batchAborted :
    Except (List (String × UStatus) × List String × PkgState)
      (List (String × UStatus) × List String × PkgState) → Bool
  | .error _ => true
  | .ok _ => false

/-- The per-addon statuses a batch produced before finishing or being
aborted. -/
def batchStatuses :
    Except (List (String × UStatus) × List String × PkgState)
      (List (String × UStatus) × List String × PkgState) →
      List (String × UStatus)
  | .error (r, _, _) => r
  | .ok (r, _, _) => r

/-- The successive on-disk contents of the `VERSION` file during the
source's `open(version_file, 'w')` + `out.write(new_version)`: opening
with mode `'w'` truncates the file at once, after which the data is
written; a crash mid-write leaves some proper prefix on disk. -/
def versionWriteStates (data : String) : List String :=
  (List.range (data.length + 1)).map (fun i => data.take i)

/-! ### Lookup lemmas for keyed association lists -/

theorem find?_key_filter_ne {α β : Type} [DecidableEq α] (l : List (α × β)) (p q : α)
    (h : q ≠ p) :
    (l.filter (fun e => decide (¬ e.1 = p))).find? (fun e => decide (e.1 = q)) =
      l.find? (fun e => decide (e.1 = q)) := by
  induction l with
  | nil => rfl
  | cons hd tl ih =>
    by_cases hp : hd.1 = p
    · have hq : ¬ hd.1 = q := fun hh => h (hh ▸ hp)
      rw [List.filter_cons_of_neg (by simpa using hp),
        List.find?_cons_of_neg _ (by simpa using hq), ih]
    · by_cases hq : hd.1 = q
      · rw [List.filter_cons_of_pos (by simpa using hp),
          List.find?_cons_of_pos _ (by simpa using hq),
          List.find?_cons_of_pos _ (by simpa using hq)]
      · rw [List.filter_cons_of_pos (by simpa using hp),
          List.find?_cons_of_neg _ (by simpa using hq),
          List.find?_cons_of_neg _ (by simpa using hq), ih]

theorem find?_key_filter_self {α β : Type} [DecidableEq α] (l : List (α × β)) (p : α) :
    (l.filter (fun e => decide (¬ e.1 = p))).find? (fun e => decide (e.1 = p)) = none := by
  induction l with
  | nil => rfl
  | cons hd tl ih =>
    by_cases hp : hd.1 = p
    · rw [List.filter_cons_of_neg (by simpa using hp), ih]
    · rw [List.filter_cons_of_pos (by simpa using hp),
        List.find?_cons_of_neg _ (by simpa using hp), ih]

/-! ### File-level lemmas -/

theorem getFile_setFile (fs : FS) (p q : FPath) (c : String) :
    getFile (setFile fs p c) q =
      if normalize q = normalize p then some c else getFile fs q := by
  by_cases h : normalize q = normalize p
  · rw [if_pos h]
    show ((((normalize p, c) ::
        fs.files.filter (fun e => decide (¬ e.1 = normalize p))).find?
      (fun e => decide (e.1 = normalize q))).map (·.2)) = some c
    rw [h, List.find?_cons_of_pos _ (by simp)]
    rfl
  · rw [if_neg h]
    show ((((normalize p, c) ::
        fs.files.filter (fun e => decide (¬ e.1 = normalize p))).find?
      (fun e => decide (e.1 = normalize q))).map (·.2)) = getFile fs q
    rw [List.find?_cons_of_neg _
        (by simp only [decide_eq_true_eq]; exact fun hh => h hh.symm),
      find?_key_filter_ne _ _ _ h]
    rfl

@[simp] theorem getFile_setFile_self (fs : FS) (p : FPath) (c : String) :
    getFile (setFile fs p c) p = some c := by
  rw [getFile_setFile, if_pos rfl]

theorem getFile_setFile_ne (fs : FS) {p q : FPath} (c : String)
    (h : normalize q ≠ normalize p) :
    getFile (setFile fs p c) q = getFile fs q := by
  rw [getFile_setFile, if_neg h]

theorem getFile_eraseFile (fs : FS) (p q : FPath) :
    getFile (eraseFile fs p) q =
      if normalize q = normalize p then none else getFile fs q := by
  by_cases h : normalize q = normalize p
  · rw [if_pos h]
    show ((fs.files.filter (fun e => decide (¬ e.1 = normalize p))).find?
      (fun e => decide (e.1 = normalize q))).map (·.2) = none
    rw [h, find?_key_filter_self]
    rfl
  · rw [if_neg h]
    show ((fs.files.filter (fun e => decide (¬ e.1 = normalize p))).find?
      (fun e => decide (e.1 = normalize q))).map (·.2) = getFile fs q
    rw [find?_key_filter_ne _ _ _ h]
    rfl

theorem files_addDir (fs : FS) (d : FPath) : (addDir fs d).files = fs.files := by
  unfold addDir; split <;> rfl

theorem files_mkdirsGo (l : List String) :
    ∀ (fs : FS) (done : FPath), (mkdirsGo fs done l).files = fs.files := by
  induction l with
  | nil => intro fs done; rfl
  | cons c rest ih =>
    intro fs done
    by_cases hb : isFileB fs (done ++ [c])
    · simp [mkdirsGo, hb]
    · simp [mkdirsGo, hb, ih, files_addDir]

theorem files_mkdirs (fs : FS) (t : FPath) : (mkdirs fs t).files = fs.files :=
  files_mkdirsGo t fs []

theorem getFile_mkdirs (fs : FS) (t q : FPath) :
    getFile (mkdirs fs t) q = getFile fs q := by
  unfold getFile
  rw [files_mkdirs]

theorem files_pruneDirs (root : FPath) (fs : FS) :
    (pruneDirs root fs).files = fs.files := rfl

/-! ### Cache-level lemmas -/

theorem fs_setCache (addon : String) (ce : CacheEntry) (st : PkgState) :
    (setCache addon ce st).fs = st.fs := rfl

@[simp] theorem cacheOf_setCache_self (addon : String) (ce : CacheEntry) (st : PkgState) :
    cacheOf (setCache addon ce st) addon = some ce := by
  show ((((addon, ce) :: st.cache.filter (fun e => decide (¬ e.1 = addon))).find?
    (fun e => decide (e.1 = addon))).map (·.2)) = some ce
  rw [List.find?_cons_of_pos _ (by simp)]
  rfl

theorem cacheOf_setCache_ne (addon b : String) (ce : CacheEntry) (st : PkgState)
    (h : b ≠ addon) :
    cacheOf (setCache addon ce st) b = cacheOf st b := by
  show ((((addon, ce) :: st.cache.filter (fun e => decide (¬ e.1 = addon))).find?
    (fun e => decide (e.1 = b))).map (·.2)) = cacheOf st b
  rw [List.find?_cons_of_neg _
      (by simp only [decide_eq_true_eq]; exact fun hh => h hh.symm),
    find?_key_filter_ne _ _ _ h]
  rfl

theorem cacheOf_withFs (st : PkgState) (x : FS) (a : String) :
    cacheOf { st with fs := x } a = cacheOf st a := rfl

@[simp] theorem versionOf_setVersion_self (addon v : String) (st : PkgState) :
    versionOf (setVersion addon v st) addon = some v := by
  unfold versionOf setVersion
  rw [cacheOf_setCache_self]
  rfl

@[simp] theorem mtreeOf_setVersion_self (addon v : String) (st : PkgState) :
    mtreeOf (setVersion addon v st) addon = mtreeOf st addon := by
  unfold mtreeOf setVersion
  rw [cacheOf_setCache_self]
  cases h : cacheOf st addon <;> simp [h]

@[simp] theorem mtreeOf_setMtree_self (addon : String) (m : List (FPath × String))
    (st : PkgState) :
    mtreeOf (setMtree addon m st) addon = some m := by
  unfold mtreeOf setMtree
  rw [cacheOf_setCache_self]
  rfl

@[simp] theorem versionOf_setMtree_self (addon : String) (m : List (FPath × String))
    (st : PkgState) :
    versionOf (setMtree addon m st) addon = versionOf st addon := by
  unfold versionOf setMtree
  rw [cacheOf_setCache_self]
  cases h : cacheOf st addon <;> simp [h]

theorem cache_remove_addon (addon : String) (addons_dir : FPath) (st : PkgState) :
    (remove_addon addon addons_dir st).cache = st.cache := by
  unfold remove_addon
  cases h : mtreeOf st addon with
  | none => rfl
  | some entries => rfl

theorem cacheOf_remove_addon (addon b : String) (addons_dir : FPath) (st : PkgState) :
    cacheOf (remove_addon addon addons_dir st) b = cacheOf st b := by
  unfold cacheOf
  rw [cache_remove_addon]

@[simp] theorem cacheOf_rmtree_self (addon : String) (st : PkgState) :
    cacheOf (rmtreeCache addon st) addon = none := by
  show ((st.cache.filter (fun e => decide (¬ e.1 = addon))).find?
    (fun e => decide (e.1 = addon))).map (·.2) = none
  rw [find?_key_filter_self]
  rfl

theorem fs_rmtree (addon : String) (st : PkgState) :
    (rmtreeCache addon st).fs = st.fs := rfl

/-! ### Ancestor-relation lemmas -/

theorem underB_iff {d p : FPath} : underB d p = true ↔ d <+: p ∧ d.length < p.length := by
  simp [underB, List.isPrefixOf_iff_prefix]

@[simp] theorem underB_self (d : FPath) : underB d d = false := by
  simp [underB]

theorem underB_trans {a b c : FPath} (h1 : underB a b = true) (h2 : underB b c = true) :
    underB a c = true := by
  rw [underB_iff] at h1 h2 ⊢
  exact ⟨h1.1.trans h2.1, Nat.lt_trans h1.2 h2.2⟩

/-! ### Characterization of the bottom-up directory pruning -/

theorem rmdirStep_subset (files : List (FPath × String)) (dirs : List FPath)
    (d : FPath) : rmdirStep files dirs d ⊆ dirs := by
  unfold rmdirStep
  split
  · exact fun _ h => h
  · exact List.filter_subset' _

theorem foldl_rmdir_subset (files : List (FPath × String)) :
    ∀ (l : List FPath) (dirs : List FPath), l.foldl (rmdirStep files) dirs ⊆ dirs := by
  intro l
  induction l with
  | nil => intro dirs x hx; exact hx
  | cons d tl ih =>
    intro dirs x hx
    rw [List.foldl_cons] at hx
    exact rmdirStep_subset files dirs d (ih _ hx)

theorem foldl_rmdir_eq (files : List (FPath × String)) (dirs0 : List FPath)
    (root : FPath) :
    ∀ rest : List FPath, List.Sorted deeperFirst rest → rest.Nodup →
      (∀ d ∈ rest, underB root d = true) →
      rest.foldl (rmdirStep files)
        (dirs0.filter (fun x =>
          !underB root x || decide (x ∈ rest) || files.any (fun f => underB x f.1))) =
      dirs0.filter (fun x => !underB root x || files.any (fun f => underB x f.1)) := by
  intro rest
  induction rest with
  | nil =>
    intro _ _ _
    simp only [List.foldl_nil]
    refine List.filter_congr ?_
    intro x _
    simp
  | cons d rest' ih =>
    intro hsort hnd hsub
    obtain ⟨hd_le, hsort'⟩ := List.sorted_cons.mp hsort
    obtain ⟨hd_notin, hnd'⟩ := List.nodup_cons.mp hnd
    have hd_root : underB root d = true := hsub d (List.mem_cons_self d rest')
    rw [List.foldl_cons]
    have hstep : rmdirStep files
        (dirs0.filter (fun x =>
          !underB root x || decide (x ∈ d :: rest') ||
            files.any (fun f => underB x f.1))) d =
        dirs0.filter (fun x =>
          !underB root x || decide (x ∈ rest') ||
            files.any (fun f => underB x f.1)) := by
      by_cases hkeep : files.any (fun f => underB d f.1) = true
      · unfold rmdirStep
        rw [if_pos (by rw [hkeep]; rfl)]
        refine List.filter_congr ?_
        intro x _
        by_cases hxd : x = d
        · subst hxd
          simp [hkeep]
        · simp [List.mem_cons, hxd]
      · have hkeep' : files.any (fun f => underB d f.1) = false :=
          Bool.eq_false_iff.mpr hkeep
        have hnodir : (dirs0.filter (fun x =>
            !underB root x || decide (x ∈ d :: rest') ||
              files.any (fun f => underB x f.1))).any (fun d2 => underB d d2) = false := by
          rw [Bool.eq_false_iff]
          intro hany
          rw [List.any_eq_true] at hany
          obtain ⟨d2, hd2mem, hd2un⟩ := hany
          rw [List.mem_filter] at hd2mem
          obtain ⟨_, hd2pred⟩ := hd2mem
          simp only [Bool.or_eq_true, Bool.not_eq_true', decide_eq_true_eq] at hd2pred
          rcases hd2pred with (hroot | hmem) | hfiles
          · rw [underB_trans hd_root hd2un] at hroot
            cases hroot
          · rcases List.mem_cons.mp hmem with rfl | hmem'
            · rw [underB_self] at hd2un
              cases hd2un
            · have hlen : d2.length ≤ d.length := hd_le d2 hmem'
              have : d.length < d2.length := (underB_iff.mp hd2un).2
              omega
          · rw [List.any_eq_true] at hfiles
            obtain ⟨f, hf, hfu⟩ := hfiles
            have : files.any (fun f => underB d f.1) = true :=
              List.any_eq_true.mpr ⟨f, hf, underB_trans hd2un hfu⟩
            rw [hkeep'] at this
            cases this
        unfold rmdirStep
        rw [if_neg (by rw [hkeep', hnodir]; simp)]
        rw [List.filter_filter]
        refine List.filter_congr ?_
        intro x _
        by_cases hxd : x = d
        · subst hxd
          have hmem' : decide (x ∈ rest') = false := by
            simpa using hd_notin
          simp [hd_root, hmem', hkeep']
        · simp [List.mem_cons, hxd]
    rw [hstep]
    exact ih hsort' hnd' (fun x hx => hsub x (List.mem_cons_of_mem d hx))

theorem pruneDirs_dirs (root : FPath) (fs : FS) (hnd : fs.dirs.Nodup) :
    (pruneDirs root fs).dirs =
      fs.dirs.filter (fun d => !underB root d || fs.files.any (fun f => underB d f.1)) := by
  have hperm :=
    List.perm_insertionSort deeperFirst (fs.dirs.filter (fun d => underB root d))
  have hsorted :=
    List.sorted_insertionSort deeperFirst (fs.dirs.filter (fun d => underB root d))
  have hnd2 :
      (List.insertionSort deeperFirst (fs.dirs.filter (fun d => underB root d))).Nodup :=
    hperm.nodup_iff.mpr (hnd.filter _)
  have hsub : ∀ d ∈ List.insertionSort deeperFirst
      (fs.dirs.filter (fun d => underB root d)), underB root d = true := by
    intro d hd
    rw [List.mem_insertionSort] at hd
    exact (List.mem_filter.mp hd).2
  have hinit : fs.dirs = fs.dirs.filter (fun x =>
      !underB root x ||
        decide (x ∈ List.insertionSort deeperFirst
          (fs.dirs.filter (fun d => underB root d))) ||
        fs.files.any (fun f => underB x f.1)) := by
    symm
    rw [List.filter_eq_self]
    intro x hx
    by_cases hu : underB root x = true
    · have hmem : x ∈ List.insertionSort deeperFirst
          (fs.dirs.filter (fun d => underB root d)) := by
        rw [List.mem_insertionSort, List.mem_filter]
        exact ⟨hx, hu⟩
      simp [hmem]
    · have hu' : underB root x = false := Bool.eq_false_iff.mpr hu
      simp [hu']
  have hmain := foldl_rmdir_eq fs.files fs.dirs root
    (List.insertionSort deeperFirst (fs.dirs.filter (fun d => underB root d)))
    hsorted hnd2 hsub
  show (List.insertionSort deeperFirst
      (fs.dirs.filter (fun d => underB root d))).foldl (rmdirStep fs.files) fs.dirs = _
  exact (congrArg (fun ini => List.foldl (rmdirStep fs.files) ini
    (List.insertionSort deeperFirst (fs.dirs.filter (fun d => underB root d)))) hinit).trans
    hmain

/-! ### File removal lemmas -/

theorem dirs_foldl_erase (root : FPath) (entries : List (FPath × String)) :
    ∀ fs : FS,
      (entries.foldl (fun fs e => eraseFile fs (root ++ e.1)) fs).dirs = fs.dirs := by
  induction entries with
  | nil => intro fs; rfl
  | cons e tl ih =>
    intro fs
    rw [List.foldl_cons, ih]
    rfl

theorem files_foldl_erase_sub (root : FPath) (entries : List (FPath × String)) :
    ∀ fs : FS,
      (entries.foldl (fun fs e => eraseFile fs (root ++ e.1)) fs).files ⊆ fs.files := by
  induction entries with
  | nil => intro fs x hx; exact hx
  | cons e tl ih =>
    intro fs x hx
    rw [List.foldl_cons] at hx
    exact List.filter_subset' _ (ih _ hx)

theorem getFile_foldl_erase_none (root : FPath) (entries : List (FPath × String)) :
    ∀ (fs : FS) (q : FPath), getFile fs q = none →
      getFile (entries.foldl (fun fs e => eraseFile fs (root ++ e.1)) fs) q = none := by
  induction entries with
  | nil => intro fs q h; exact h
  | cons e tl ih =>
    intro fs q h
    rw [List.foldl_cons]
    apply ih
    rw [getFile_eraseFile]
    by_cases hq : normalize q = normalize (root ++ e.1)
    · rw [if_pos hq]
    · rw [if_neg hq]
      exact h

theorem getFile_foldl_erase_mem (root : FPath) (entries : List (FPath × String)) :
    ∀ (fs : FS) (pr : FPath × String), pr ∈ entries →
      getFile (entries.foldl (fun fs e => eraseFile fs (root ++ e.1)) fs)
        (root ++ pr.1) = none := by
  induction entries with
  | nil =>
    intro fs pr h
    cases h
  | cons e tl ih =>
    intro fs pr h
    rw [List.foldl_cons]
    rcases List.mem_cons.mp h with rfl | htl
    · apply getFile_foldl_erase_none
      rw [getFile_eraseFile, if_pos rfl]
    · exact ih _ _ htl

/-! ### Extraction soundness -/

theorem fs_withFs (st : PkgState) (x : FS) : (PkgState.mk x st.cache).fs = x := rfl

theorem versionOf_withFs (st : PkgState) (x : FS) (a : String) :
    versionOf { st with fs := x } a = versionOf st a := rfl

theorem mtreeOf_withFs (st : PkgState) (x : FS) (a : String) :
    mtreeOf { st with fs := x } a = mtreeOf st a := rfl

theorem extractLoop_ok_sound (hash : String → String) (addons_dir : FPath)
    (archive : List ZEntry)
    (hres : ∀ e1 ∈ archive, ∀ e2 ∈ archive, e1.isDir = false → e2.isDir = false →
      normalize (addons_dir ++ e1.name) = normalize (addons_dir ++ e2.name) →
      e1.name = e2.name) :
    ∀ es : List ZEntry, (∀ e ∈ es, e ∈ archive) →
      ∀ (fs : FS) (acc : List (FPath × String)),
      (∀ pr ∈ acc,
        (∃ e ∈ archive, e.isDir = false ∧ e.name = pr.1) ∧
        getFile fs (addons_dir ++ pr.1) = some (lastContent archive pr.1) ∧
        pr.2 = hash (lastContent archive pr.1)) →
      ∀ (fs' : FS) (m' : List (FPath × String)),
        extractLoop hash addons_dir archive fs acc es = .ok (fs', m') →
        ∀ pr ∈ m', ∃ c, getFile fs' (addons_dir ++ pr.1) = some c ∧ pr.2 = hash c := by
  intro es
  induction es with
  | nil =>
    intro _ fs acc hacc fs' m' hok pr hpr
    simp only [extractLoop] at hok
    cases hok
    obtain ⟨_, h1, h2⟩ := hacc pr hpr
    exact ⟨lastContent archive pr.1, h1, h2⟩
  | cons e tl ih =>
    intro hsub fs acc hacc fs' m' hok pr hpr
    have hsub' : ∀ e2 ∈ tl, e2 ∈ archive :=
      fun e2 h2 => hsub e2 (List.mem_cons_of_mem e h2)
    have heA : e ∈ archive := hsub e (List.mem_cons_self e tl)
    simp only [extractLoop] at hok
    by_cases hdir : e.isDir = true
    · rw [if_pos hdir] at hok
      by_cases hmem : isDirB (mkdirs fs (addons_dir ++ e.name))
          (addons_dir ++ e.name) = true
      · rw [if_pos hmem] at hok
        have hacc' : ∀ pr2 ∈ acc,
            (∃ e3 ∈ archive, e3.isDir = false ∧ e3.name = pr2.1) ∧
            getFile (mkdirs fs (addons_dir ++ e.name)) (addons_dir ++ pr2.1) =
              some (lastContent archive pr2.1) ∧
            pr2.2 = hash (lastContent archive pr2.1) := by
          intro pr2 hpr2
          obtain ⟨hw, h1, h2⟩ := hacc pr2 hpr2
          exact ⟨hw, by rw [getFile_mkdirs]; exact h1, h2⟩
        exact ih hsub' _ _ hacc' _ _ hok pr hpr
      · rw [if_neg hmem] at hok
        simp at hok
    · rw [if_neg hdir] at hok
      by_cases hm1 : isDirB (mkdirs fs (addons_dir ++ e.name).dropLast)
          (addons_dir ++ e.name) = true
      · rw [if_pos hm1] at hok
        have hacc' : ∀ pr2 ∈ acc,
            (∃ e3 ∈ archive, e3.isDir = false ∧ e3.name = pr2.1) ∧
            getFile (mkdirs fs (addons_dir ++ e.name).dropLast) (addons_dir ++ pr2.1) =
              some (lastContent archive pr2.1) ∧
            pr2.2 = hash (lastContent archive pr2.1) := by
          intro pr2 hpr2
          obtain ⟨hw, h1, h2⟩ := hacc pr2 hpr2
          exact ⟨hw, by rw [getFile_mkdirs]; exact h1, h2⟩
        exact ih hsub' _ _ hacc' _ _ hok pr hpr
      · rw [if_neg hm1] at hok
        by_cases hm2 : isDirB (mkdirs fs (addons_dir ++ e.name).dropLast)
            (addons_dir ++ e.name).dropLast = true
        · rw [if_pos hm2] at hok
          by_cases hfail : e.ioFail = true
          · rw [if_pos hfail] at hok
            simp at hok
          · rw [if_neg hfail] at hok
            have hacc' : ∀ pr2 ∈ acc ++ [(e.name, hash (lastContent archive e.name))],
                (∃ e3 ∈ archive, e3.isDir = false ∧ e3.name = pr2.1) ∧
                getFile (setFile (mkdirs fs (addons_dir ++ e.name).dropLast)
                    (addons_dir ++ e.name) (lastContent archive e.name))
                  (addons_dir ++ pr2.1) = some (lastContent archive pr2.1) ∧
                pr2.2 = hash (lastContent archive pr2.1) := by
              intro pr2 hpr2
              rcases List.mem_append.mp hpr2 with hold | hnew
              · obtain ⟨⟨e1, he1A, he1f, he1n⟩, h1, h2⟩ := hacc pr2 hold
                refine ⟨⟨e1, he1A, he1f, he1n⟩, ?_, h2⟩
                rw [getFile_setFile]
                by_cases hcol : normalize (addons_dir ++ pr2.1) =
                    normalize (addons_dir ++ e.name)
                · rw [if_pos hcol]
                  have hname : pr2.1 = e.name := by
                    have hcol1 : normalize (addons_dir ++ e1.name) =
                        normalize (addons_dir ++ e.name) := by
                      rw [he1n]
                      exact hcol
                    have := hres e1 he1A e heA he1f
                      (Bool.eq_false_iff.mpr hdir) hcol1
                    rw [← he1n]
                    exact this
                  rw [hname]
                · rw [if_neg hcol, getFile_mkdirs]
                  exact h1
              · have hpr2eq : pr2 = (e.name, hash (lastContent archive e.name)) := by
                  simpa using hnew
                subst hpr2eq
                exact ⟨⟨e, heA, Bool.eq_false_iff.mpr hdir, rfl⟩,
                  getFile_setFile_self _ _ _, rfl⟩
            exact ih hsub' _ _ hacc' _ _ hok pr hpr
        · rw [if_neg hm2] at hok
          simp at hok

theorem extractLoop_ok_no_stray (hash : String → String) (addons_dir : FPath)
    (archive : List ZEntry) :
    ∀ (es : List ZEntry) (fs : FS) (acc : List (FPath × String))
      (fs' : FS) (m' : List (FPath × String)),
      extractLoop hash addons_dir archive fs acc es = .ok (fs', m') →
      ∀ q : FPath, getFile fs q = none →
        (∀ e ∈ es, e.isDir = false →
          normalize q ≠ normalize (addons_dir ++ e.name)) →
        getFile fs' q = none := by
  intro es
  induction es with
  | nil =>
    intro fs acc fs' m' hok q hq _
    simp only [extractLoop] at hok
    cases hok
    exact hq
  | cons e tl ih =>
    intro fs acc fs' m' hok q hq hne
    simp only [extractLoop] at hok
    have hq1 : getFile (mkdirs fs (addons_dir ++ e.name)) q = none := by
      rw [getFile_mkdirs]; exact hq
    have hq2 : getFile (mkdirs fs (addons_dir ++ e.name).dropLast) q = none := by
      rw [getFile_mkdirs]; exact hq
    have hne' : ∀ e2 ∈ tl, e2.isDir = false →
        normalize q ≠ normalize (addons_dir ++ e2.name) :=
      fun e2 he2 => hne e2 (List.mem_cons_of_mem e he2)
    by_cases hdir : e.isDir = true
    · rw [if_pos hdir] at hok
      by_cases hmem : isDirB (mkdirs fs (addons_dir ++ e.name))
          (addons_dir ++ e.name) = true
      · rw [if_pos hmem] at hok
        exact ih _ _ _ _ hok q hq1 hne'
      · rw [if_neg hmem] at hok
        simp at hok
    · rw [if_neg hdir] at hok
      by_cases hm1 : isDirB (mkdirs fs (addons_dir ++ e.name).dropLast)
          (addons_dir ++ e.name) = true
      · rw [if_pos hm1] at hok
        exact ih _ _ _ _ hok q hq2 hne'
      · rw [if_neg hm1] at hok
        by_cases hm2 : isDirB (mkdirs fs (addons_dir ++ e.name).dropLast)
            (addons_dir ++ e.name).dropLast = true
        · rw [if_pos hm2] at hok
          by_cases hfail : e.ioFail = true
          · rw [if_pos hfail] at hok
            simp at hok
          · rw [if_neg hfail] at hok
            have hqne : normalize q ≠ normalize (addons_dir ++ e.name) :=
              hne e (List.mem_cons_self _ _) (Bool.eq_false_iff.mpr hdir)
            have hq3 : getFile (setFile (mkdirs fs (addons_dir ++ e.name).dropLast)
                (addons_dir ++ e.name) (lastContent archive e.name)) q = none := by
              rw [getFile_setFile_ne _ _ hqne]
              exact hq2
            exact ih _ _ _ _ hok q hq3 hne'
        · rw [if_neg hm2] at hok
          simp at hok

/-! ### Shape lemmas for `finishInstall` and `update_addon` -/

theorem check_addon_of_mtree (hash : String → String) (addon : String)
    (addons_dir : FPath) (st : PkgState) (m : List (FPath × String))
    (hm : mtreeOf st addon = some m) :
    check_addon hash addon addons_dir st =
      m.all (fun e =>
        match getFile st.fs (addons_dir ++ e.1) with
        | none => false
        | some c => hash c == e.2) := by
  unfold check_addon
  rw [hm]

theorem finishInstall_ok_inv (hash : String → String) (addon : String)
    (addons_dir : FPath) (stt : UStatus) (v : String) (es : List ZEntry)
    (st : PkgState) (pr : UStatus × PkgState)
    (h : finishInstall hash addon addons_dir stt v es st = .ok pr) :
    ∃ fs2 m2, extractArchive hash addons_dir st.fs [] es = .ok (fs2, m2) ∧
      pr = (stt, setMtree addon m2 { setVersion addon v st with fs := fs2 }) := by
  simp only [finishInstall] at h
  rw [show (setVersion addon v st).fs = st.fs from rfl] at h
  cases hx : extractArchive hash addons_dir st.fs [] es with
  | error fsp =>
    rw [hx] at h
    simp at h
  | ok pr2 =>
    obtain ⟨fs2, m2⟩ := pr2
    rw [hx] at h
    refine ⟨fs2, m2, rfl, ?_⟩
    injection h with h1
    exact h1.symm

theorem finishInstall_check (hash : String → String) (addon : String)
    (addons_dir : FPath) (stt : UStatus) (v : String) (es : List ZEntry)
    (st : PkgState) (pr : UStatus × PkgState)
    (hres : ∀ e1 ∈ es, ∀ e2 ∈ es, e1.isDir = false → e2.isDir = false →
      normalize (addons_dir ++ e1.name) = normalize (addons_dir ++ e2.name) →
      e1.name = e2.name)
    (h : finishInstall hash addon addons_dir stt v es st = .ok pr) :
    pr.1 = stt ∧ check_addon hash addon addons_dir pr.2 = true ∧
      versionOf pr.2 addon = some v := by
  obtain ⟨fs2, m2, hx, hpr⟩ := finishInstall_ok_inv hash addon addons_dir stt v es st pr h
  subst hpr
  refine ⟨rfl, ?_, ?_⟩
  · rw [check_addon_of_mtree hash addon addons_dir _ m2 (mtreeOf_setMtree_self _ _ _)]
    rw [List.all_eq_true]
    intro pr2 hpr2
    have hx' : extractLoop hash addons_dir es st.fs [] es = .ok (fs2, m2) := hx
    have hsound := extractLoop_ok_sound hash addons_dir es hres es
      (fun e he => he) st.fs [] (by intro pr3 hpr3; cases hpr3) fs2 m2 hx' pr2 hpr2
    obtain ⟨c, hc, hd⟩ := hsound
    have hfs : (setMtree addon m2 { setVersion addon v st with fs := fs2 }).fs = fs2 := rfl
    rw [hfs, hc, hd]
    simp
  · rw [versionOf_setMtree_self, versionOf_withFs, versionOf_setVersion_self]

theorem update_up_to_date_eq (hash : String → String) (addon : String)
    (addons_dir : FPath) (v : String) (es : List ZEntry) (st : PkgState)
    (hv : versionOf st addon = some v)
    (hchk : check_addon hash addon addons_dir st = true) :
    update_addon hash addon addons_dir (some (v, es)) st = .ok (.upToDate, st) := by
  simp only [update_addon, hv, if_true]
  rw [if_pos hchk]

theorem update_broken_eq (hash : String → String) (addon : String)
    (addons_dir : FPath) (v : String) (es : List ZEntry) (st : PkgState)
    (hv : versionOf st addon = some v)
    (hchk : check_addon hash addon addons_dir st = false) :
    update_addon hash addon addons_dir (some (v, es)) st =
      finishInstall hash addon addons_dir .reinstalled v es
        (remove_addon addon addons_dir st) := by
  simp only [update_addon, hv, if_true]
  rw [if_neg (by rw [hchk]; simp)]

theorem update_changed_eq (hash : String → String) (addon : String)
    (addons_dir : FPath) (old v : String) (es : List ZEntry) (st : PkgState)
    (hv : versionOf st addon = some old) (hne : ¬ old = v) :
    update_addon hash addon addons_dir (some (v, es)) st =
      finishInstall hash addon addons_dir .updated v es
        (remove_addon addon addons_dir st) := by
  simp only [update_addon, hv]
  rw [if_neg hne]

theorem update_fresh_eq (hash : String → String) (addon : String)
    (addons_dir : FPath) (v : String) (es : List ZEntry) (st : PkgState)
    (hv : versionOf st addon = none) :
    update_addon hash addon addons_dir (some (v, es)) st =
      finishInstall hash addon addons_dir .installed v es (ensureCacheDir addon st) := by
  simp only [update_addon, hv]

/-! ### Consequences for `remove_addon` -/

theorem getFile_remove_addon (addon : String) (addons_dir : FPath) (st : PkgState)
    (m : List (FPath × String)) (hm : mtreeOf st addon = some m)
    (pr : FPath × String) (hpr : pr ∈ m) :
    getFile (remove_addon addon addons_dir st).fs (addons_dir ++ pr.1) = none := by
  unfold remove_addon
  rw [hm]
  exact getFile_foldl_erase_mem addons_dir m st.fs pr hpr

theorem dirs_pruneDirs_subset (root : FPath) (fs : FS) :
    (pruneDirs root fs).dirs ⊆ fs.dirs := by
  show (List.insertionSort deeperFirst (fs.dirs.filter (fun d => underB root d))).foldl
    (rmdirStep fs.files) fs.dirs ⊆ fs.dirs
  exact foldl_rmdir_subset _ _ _

theorem dirs_remove_addon_subset (addon : String) (addons_dir : FPath) (st : PkgState) :
    (remove_addon addon addons_dir st).fs.dirs ⊆ st.fs.dirs := by
  unfold remove_addon
  cases hm : mtreeOf st addon with
  | none => exact fun x hx => hx
  | some m =>
    intro x hx
    have h1 : x ∈ (m.foldl (fun fs e => eraseFile fs (addons_dir ++ e.1)) st.fs).dirs :=
      dirs_pruneDirs_subset addons_dir _ hx
    rwa [dirs_foldl_erase] at h1

/-! ### The claims -/

/-- C1: the claim that every archive entry resolving outside the install
root makes extraction fail with a `PathTraversalError` is false on the
code: `update_addon` concatenates `addons_dir + name` with no check of any
kind, and no such error exists in the program.  Installing an archive whose
single entry is named `../evil.lua` succeeds, writes the entry's content at
`addons_dir + "../evil.lua"`, and that path resolves outside the install
root. -/
theorem c1_path_traversal_not_rejected :
    okU (update_addon (fun s => s) "evil" ["Interface", "AddOns"]
      (some ("1.0", [⟨["..", "evil.lua"], false, "owned", false⟩]))
      ⟨⟨[], [["Interface", "AddOns"]]⟩, []⟩) = true ∧
    getFile (stateOfU (update_addon (fun s => s) "evil" ["Interface", "AddOns"]
      (some ("1.0", [⟨["..", "evil.lua"], false, "owned", false⟩]))
      ⟨⟨[], [["Interface", "AddOns"]]⟩, []⟩)).fs
      (["Interface", "AddOns"] ++ ["..", "evil.lua"]) = some "owned" ∧
    (["Interface", "AddOns"]).isPrefixOf
      (normalize (["Interface", "AddOns"] ++ ["..", "evil.lua"])) = false := by
  decide

/-- C2: the claim that a failure for one package never aborts the rest of
the batch is false on the code: the `install`/`update` loop of `__main__`
has no exception handler, so a fetch failure for the first addon raises out
of the loop.  With addons `["alpha", "beta"]` where fetching `alpha` fails
and `beta` is perfectly installable, the batch aborts with an empty status
list — `beta` is never processed and never receives a status — while
running `beta` alone succeeds. -/
theorem c2_batch_aborted_by_single_failure :
    batchAborted (installLoop (fun s => s) ["R"]
      (fun a => if a = "alpha" then none
        else some ("1.0", [⟨["f.lua"], false, "c", false⟩]))
      ["alpha", "beta"] [] ⟨⟨[], [["R"]]⟩, []⟩ []) = true ∧
    batchStatuses (installLoop (fun s => s) ["R"]
      (fun a => if a = "alpha" then none
        else some ("1.0", [⟨["f.lua"], false, "c", false⟩]))
      ["alpha", "beta"] [] ⟨⟨[], [["R"]]⟩, []⟩ []) = [] ∧
    batchAborted (installLoop (fun s => s) ["R"]
      (fun a => if a = "alpha" then none
        else some ("1.0", [⟨["f.lua"], false, "c", false⟩]))
      ["beta"] [] ⟨⟨[], [["R"]]⟩, []⟩ []) = false := by
  decide

/-- C3: the claim that manifest saving is atomic (write-to-temp then
rename) is false on the code: both the `VERSION` and the `MTREE` file are
rewritten in place (`open(..., 'w')` / `gzip.open(..., 'wt')`), which
truncates immediately.  While updating a stored tag from `"1.0"` to
`"2.0"`, the very first intermediate on-disk state is the empty file —
neither the complete old nor the complete new content — so a crash
mid-write leaves a truncated manifest. -/
theorem c3_version_write_truncates :
    (versionWriteStates "2.0").head? = some "" ∧
    "" ∈ versionWriteStates "2.0" ∧ ¬ "" = "1.0" ∧ ¬ "" = "2.0" := by
  decide

/-- C4: the claim that no part of the manifest is persisted before
extraction completes is false on the code: `update_addon` rewrites the
`VERSION` file before the archive is even downloaded.  Updating a package
from `"1.0"` to `"2.0"` with a single archive entry whose write fails
raises, yet afterwards the persisted version tag is already `"2.0"`
(paired with the old entry list), so the persisted manifest state changed
although extraction never completed. -/
theorem c4_version_tag_persisted_before_extraction :
    okU (update_addon (fun s => s) "foo" ["R"]
      (some ("2.0", [⟨["b.lua"], false, "y", true⟩]))
      ⟨⟨[(["R", "a.lua"], "x")], [["R"]]⟩,
        [("foo", ⟨some "1.0", some [(["a.lua"], "x")]⟩)]⟩) = false ∧
    versionOf (stateOfU (update_addon (fun s => s) "foo" ["R"]
      (some ("2.0", [⟨["b.lua"], false, "y", true⟩]))
      ⟨⟨[(["R", "a.lua"], "x")], [["R"]]⟩,
        [("foo", ⟨some "1.0", some [(["a.lua"], "x")]⟩)]⟩)) "foo" = some "2.0" ∧
    versionOf (⟨⟨[(["R", "a.lua"], "x")], [["R"]]⟩,
      [("foo", ⟨some "1.0", some [(["a.lua"], "x")]⟩)]⟩ : PkgState) "foo" = some "1.0" ∧
    mtreeOf (stateOfU (update_addon (fun s => s) "foo" ["R"]
      (some ("2.0", [⟨["b.lua"], false, "y", true⟩]))
      ⟨⟨[(["R", "a.lua"], "x")], [["R"]]⟩,
        [("foo", ⟨some "1.0", some [(["a.lua"], "x")]⟩)]⟩)) "foo" =
      some [(["a.lua"], "x")] := by
  decide

/-- C5 counterexample: the claim fails as stated, because two distinct
file-entry names can resolve to the same on-disk path.  An archive holding
`a.lua` (content `x`) and `./a.lua` (content `y`) installs successfully —
both names are separate `NameToInfo` keys, each streaming its own bytes —
but both writes land on the one file `R/a.lua`, which ends up holding `y`
while the manifest records digest of `x` for `a.lua`; verification reports
Broken immediately after the successful install. -/
theorem c5_aliasing_breaks_verify :
    okU (update_addon (fun s => s) "pkg" ["R"]
      (some ("1.0", [⟨["a.lua"], false, "x", false⟩,
        ⟨[".", "a.lua"], false, "y", false⟩]))
      ⟨⟨[], [["R"]]⟩, []⟩) = true ∧
    check_addon (fun s => s) "pkg" ["R"]
      (stateOfU (update_addon (fun s => s) "pkg" ["R"]
        (some ("1.0", [⟨["a.lua"], false, "x", false⟩,
          ⟨[".", "a.lua"], false, "y", false⟩]))
        ⟨⟨[], [["R"]]⟩, []⟩)) = false := by
  decide

/-- C5 (amended): for every package whose install/update completes
successfully from an archive in which no two distinct file-entry names
resolve to the same on-disk path, verifying the freshly stored manifest
against the install root immediately afterwards returns Ok: every
recorded entry's file exists at the path `addons_dir ++ relativePath`
resolves to, with content whose digest equals the recorded digest.
(Entries that literally repeat one name are fine: zipfile's `NameToInfo`
lookup streams the last such entry's bytes for all of them.) -/
theorem c5_verify_ok_after_install (hash : String → String) (addon : String)
    (addons_dir : FPath) (v : String) (es : List ZEntry) (st : PkgState)
    (hres : ∀ e1 ∈ es, ∀ e2 ∈ es, e1.isDir = false → e2.isDir = false →
      normalize (addons_dir ++ e1.name) = normalize (addons_dir ++ e2.name) →
      e1.name = e2.name)
    (hok : okU (update_addon hash addon addons_dir (some (v, es)) st) = true) :
    check_addon hash addon addons_dir
      (stateOfU (update_addon hash addon addons_dir (some (v, es)) st)) = true := by
  cases hv : versionOf st addon with
  | none =>
    rw [update_fresh_eq hash addon addons_dir v es st hv] at hok ⊢
    cases hfi : finishInstall hash addon addons_dir .installed v es
        (ensureCacheDir addon st) with
    | error pr =>
      rw [hfi] at hok
      simp [okU] at hok
    | ok pr =>
      obtain ⟨s1, st1⟩ := pr
      exact (finishInstall_check hash addon addons_dir _ v es _ _ hres hfi).2.1
  | some old =>
    by_cases he : old = v
    · subst he
      by_cases hchk : check_addon hash addon addons_dir st = true
      · rw [update_up_to_date_eq hash addon addons_dir old es st hv hchk]
        exact hchk
      · have hchk' := Bool.eq_false_iff.mpr hchk
        rw [update_broken_eq hash addon addons_dir old es st hv hchk'] at hok ⊢
        cases hfi : finishInstall hash addon addons_dir .reinstalled old es
            (remove_addon addon addons_dir st) with
        | error pr =>
          rw [hfi] at hok
          simp [okU] at hok
        | ok pr =>
          obtain ⟨s1, st1⟩ := pr
          exact (finishInstall_check hash addon addons_dir _ old es _ _ hres hfi).2.1
    · rw [update_changed_eq hash addon addons_dir old v es st hv he] at hok ⊢
      cases hfi : finishInstall hash addon addons_dir .updated v es
          (remove_addon addon addons_dir st) with
      | error pr =>
        rw [hfi] at hok
        simp [okU] at hok
      | ok pr =>
        obtain ⟨s1, st1⟩ := pr
        exact (finishInstall_check hash addon addons_dir _ v es _ _ hres hfi).2.1

/-- Witness for C5 (amended): installing one well-formed archive from
scratch and verifying immediately afterwards returns Ok. -/
theorem c5_verify_ok_after_install_witness :
    check_addon (fun s => s) "w" ["R"]
      (stateOfU (update_addon (fun s => s) "w" ["R"]
        (some ("1.0", [⟨["a.lua"], false, "x", false⟩]))
        ⟨⟨[], [["R"]]⟩, []⟩)) = true :=
  c5_verify_ok_after_install (fun s => s) "w" ["R"] "1.0"
    [⟨["a.lua"], false, "x", false⟩] ⟨⟨[], [["R"]]⟩, []⟩ (by decide) (by decide)

/-- C6: invoking update on a package whose remote tag equals the stored
tag and whose on-disk files verify Ok is a no-op: `update_addon` returns
the "already up-to-date" status and the entire program state — install
root files and persisted manifest alike — is returned unchanged. -/
theorem c6_up_to_date_noop (hash : String → String) (addon : String)
    (addons_dir : FPath) (v : String) (es : List ZEntry) (st : PkgState)
    (hv : versionOf st addon = some v)
    (hchk : check_addon hash addon addons_dir st = true) :
    update_addon hash addon addons_dir (some (v, es)) st = .ok (.upToDate, st) :=
  update_up_to_date_eq hash addon addons_dir v es st hv hchk

/-- Witness for C6: a healthy installed package with an unchanged remote
tag is left untouched. -/
theorem c6_up_to_date_noop_witness :
    update_addon (fun s => s) "foo" ["R"]
      (some ("1.0", [⟨["a.lua"], false, "zzz", false⟩]))
      ⟨⟨[(["R", "a.lua"], "x")], [["R"]]⟩,
        [("foo", ⟨some "1.0", some [(["a.lua"], "x")]⟩)]⟩ =
      .ok (.upToDate, ⟨⟨[(["R", "a.lua"], "x")], [["R"]]⟩,
        [("foo", ⟨some "1.0", some [(["a.lua"], "x")]⟩)]⟩) :=
  c6_up_to_date_noop (fun s => s) "foo" ["R"] "1.0"
    [⟨["a.lua"], false, "zzz", false⟩]
    ⟨⟨[(["R", "a.lua"], "x")], [["R"]]⟩,
      [("foo", ⟨some "1.0", some [(["a.lua"], "x")]⟩)]⟩ (by decide) (by decide)

/-- C7 counterexample: the claim's tail — "after which verification
returns Ok" — fails as stated: with an unchanged tag and a broken install,
the forced reinstall runs and completes successfully, but the freshly
fetched archive holds the two distinct names `a.lua` and `./a.lua`, which
resolve to the same file under the install root, so verification still
reports Broken afterwards. -/
theorem c7_aliasing_breaks_reinstall :
    check_addon (fun s => s) "pkg" ["R"]
      (⟨⟨[], [["R"]]⟩, [("pkg", ⟨some "1.0", some [(["a.lua"], "x")]⟩)]⟩ : PkgState)
      = false ∧
    okU (update_addon (fun s => s) "pkg" ["R"]
      (some ("1.0", [⟨["a.lua"], false, "x", false⟩,
        ⟨[".", "a.lua"], false, "y", false⟩]))
      ⟨⟨[], [["R"]]⟩, [("pkg", ⟨some "1.0", some [(["a.lua"], "x")]⟩)]⟩) = true ∧
    check_addon (fun s => s) "pkg" ["R"]
      (stateOfU (update_addon (fun s => s) "pkg" ["R"]
        (some ("1.0", [⟨["a.lua"], false, "x", false⟩,
          ⟨[".", "a.lua"], false, "y", false⟩]))
        ⟨⟨[], [["R"]]⟩, [("pkg", ⟨some "1.0", some [(["a.lua"], "x")]⟩)]⟩)) = false := by
  decide

/-- C7 (amended): when the remote tag equals the stored tag but
verification reports Broken, and no two distinct file-entry names of the
freshly fetched archive resolve to the same on-disk path, a successful
`update_addon` run is a forced reinstall: it returns the reinstall
status, the stored tag is unchanged, verification afterwards returns Ok,
and every file listed in the old manifest whose path the new archive does
not provide is gone from the install root. -/
theorem c7_reinstall_when_broken (hash : String → String) (addon : String)
    (addons_dir : FPath) (v : String) (es : List ZEntry) (st : PkgState)
    (m : List (FPath × String))
    (hv : versionOf st addon = some v)
    (hbr : check_addon hash addon addons_dir st = false)
    (hm : mtreeOf st addon = some m)
    (hres : ∀ e1 ∈ es, ∀ e2 ∈ es, e1.isDir = false → e2.isDir = false →
      normalize (addons_dir ++ e1.name) = normalize (addons_dir ++ e2.name) →
      e1.name = e2.name)
    (hok : okU (update_addon hash addon addons_dir (some (v, es)) st) = true) :
    update_addon hash addon addons_dir (some (v, es)) st =
      .ok (.reinstalled,
        stateOfU (update_addon hash addon addons_dir (some (v, es)) st)) ∧
    versionOf (stateOfU (update_addon hash addon addons_dir (some (v, es)) st))
      addon = some v ∧
    check_addon hash addon addons_dir
      (stateOfU (update_addon hash addon addons_dir (some (v, es)) st)) = true ∧
    ∀ pr ∈ m,
      normalize (addons_dir ++ pr.1) ∉
        (es.filter (fun e => !e.isDir)).map
          (fun e => normalize (addons_dir ++ e.name)) →
      getFile (stateOfU (update_addon hash addon addons_dir (some (v, es)) st)).fs
        (addons_dir ++ pr.1) = none := by
  rw [update_broken_eq hash addon addons_dir v es st hv hbr] at hok ⊢
  cases hfi : finishInstall hash addon addons_dir .reinstalled v es
      (remove_addon addon addons_dir st) with
  | error pr =>
    rw [hfi] at hok
    simp [okU] at hok
  | ok pr =>
    obtain ⟨s1, st1⟩ := pr
    obtain ⟨hstt, hchk2, hver⟩ :=
      finishInstall_check hash addon addons_dir _ v es _ _ hres hfi
    obtain ⟨fs2, m2, hx, hpr⟩ :=
      finishInstall_ok_inv hash addon addons_dir _ v es _ _ hfi
    refine ⟨?_, hver, hchk2, ?_⟩
    · rw [show s1 = UStatus.reinstalled from hstt]
      rfl
    · intro pr2 hpr2 hnot
      have hst1 : st1 = setMtree addon m2
          { setVersion addon v (remove_addon addon addons_dir st) with fs := fs2 } := by
        have h2 := congrArg Prod.snd hpr
        simpa using h2
      have hfsEq : (stateOfU (Except.ok (s1, st1) :
          Except (UErr × PkgState) (UStatus × PkgState))).fs = fs2 := by
        rw [show (stateOfU (Except.ok (s1, st1) :
          Except (UErr × PkgState) (UStatus × PkgState))) = st1 from rfl, hst1]
        rfl
      rw [hfsEq]
      have hrm : getFile (remove_addon addon addons_dir st).fs
          (addons_dir ++ pr2.1) = none :=
        getFile_remove_addon addon addons_dir st m hm pr2 hpr2
      have hx' : extractLoop hash addons_dir es
          (remove_addon addon addons_dir st).fs [] es = .ok (fs2, m2) := hx
      refine extractLoop_ok_no_stray hash addons_dir es es _ [] fs2 m2 hx'
        (addons_dir ++ pr2.1) hrm ?_
      intro e2 he2 hd2 hcontra
      apply hnot
      rw [hcontra]
      exact List.mem_map_of_mem _ (List.mem_filter.mpr ⟨he2, by simp [hd2]⟩)

/-- Witness for C7 (amended): a broken install (one listed file missing)
with an unchanged remote tag gets reinstalled; verification then returns
Ok, and a stale file the new archive no longer provides is removed. -/
theorem c7_reinstall_when_broken_witness :
    check_addon (fun s => s) "pkg" ["R"]
      (stateOfU (update_addon (fun s => s) "pkg" ["R"]
        (some ("1.0", [⟨["a.lua"], false, "x2", false⟩]))
        ⟨⟨[(["R", "gone.lua"], "z")], [["R"]]⟩,
          [("pkg", ⟨some "1.0", some [(["a.lua"], "x"), (["gone.lua"], "z")]⟩)]⟩)) =
      true ∧
    getFile (stateOfU (update_addon (fun s => s) "pkg" ["R"]
        (some ("1.0", [⟨["a.lua"], false, "x2", false⟩]))
        ⟨⟨[(["R", "gone.lua"], "z")], [["R"]]⟩,
          [("pkg", ⟨some "1.0", some [(["a.lua"], "x"), (["gone.lua"], "z")]⟩)]⟩)).fs
      (["R"] ++ ["gone.lua"]) = none :=
  ⟨(c7_reinstall_when_broken (fun s => s) "pkg" ["R"] "1.0"
      [⟨["a.lua"], false, "x2", false⟩]
      ⟨⟨[(["R", "gone.lua"], "z")], [["R"]]⟩,
        [("pkg", ⟨some "1.0", some [(["a.lua"], "x"), (["gone.lua"], "z")]⟩)]⟩
      [(["a.lua"], "x"), (["gone.lua"], "z")]
      (by decide) (by decide) (by decide) (by decide) (by decide)).2.2.1,
    (c7_reinstall_when_broken (fun s => s) "pkg" ["R"] "1.0"
      [⟨["a.lua"], false, "x2", false⟩]
      ⟨⟨[(["R", "gone.lua"], "z")], [["R"]]⟩,
        [("pkg", ⟨some "1.0", some [(["a.lua"], "x"), (["gone.lua"], "z")]⟩)]⟩
      [(["a.lua"], "x"), (["gone.lua"], "z")]
      (by decide) (by decide) (by decide) (by decide) (by decide)).2.2.2
      (["gone.lua"], "z") (by decide) (by decide)⟩

/-- C8: one completed `remove` iteration for a tracked package with a
persisted manifest returns the removed status; afterwards no file listed
in the former manifest exists under the install root (listed files already
missing are tolerated — nothing in the hypotheses requires them to
exist), loading the package's manifest returns NotFound, and the
bottom-up pruning only ever deletes directories (the final directory set
is a subset of the original one). -/
theorem c8_remove_complete (addon : String) (addons_dir : FPath)
    (cfg : List String) (st : PkgState) (m : List (FPath × String))
    (ha : addon ∈ cfg) (hm : mtreeOf st addon = some m) :
    removeStep addon addons_dir cfg st =
      .ok (.removed, cfg.erase addon,
        rmtreeCache addon (remove_addon addon addons_dir st)) ∧
    (∀ pr ∈ m, getFile (rmtreeCache addon (remove_addon addon addons_dir st)).fs
      (addons_dir ++ pr.1) = none) ∧
    cacheOf (rmtreeCache addon (remove_addon addon addons_dir st)) addon = none ∧
    (rmtreeCache addon (remove_addon addon addons_dir st)).fs.dirs ⊆ st.fs.dirs := by
  have hcache : cacheOf (remove_addon addon addons_dir st) addon = cacheOf st addon :=
    cacheOf_remove_addon addon addon addons_dir st
  have hsome : ∃ ce, cacheOf st addon = some ce := by
    cases hcc : cacheOf st addon with
    | none =>
      rw [mtreeOf, hcc] at hm
      cases hm
    | some ce => exact ⟨ce, rfl⟩
  obtain ⟨ce, hce⟩ := hsome
  refine ⟨?_, ?_, cacheOf_rmtree_self addon _, ?_⟩
  · simp only [removeStep]
    rw [if_pos ha, hcache, hce]
  · intro pr hpr
    exact getFile_remove_addon addon addons_dir st m hm pr hpr
  · exact dirs_remove_addon_subset addon addons_dir st

/-- Witness for C8: removing a tracked package whose manifest lists one
present and one already-missing file completes, leaves neither file and no
manifest behind. -/
theorem c8_remove_complete_witness :
    removeStep "p" ["R"] ["p"]
      ⟨⟨[(["R", "a.lua"], "x")], [["R"]]⟩,
        [("p", ⟨some "1.0", some [(["a.lua"], "x"), (["miss.lua"], "y")]⟩)]⟩ =
      .ok (.removed, [],
        rmtreeCache "p" (remove_addon "p" ["R"]
          ⟨⟨[(["R", "a.lua"], "x")], [["R"]]⟩,
            [("p", ⟨some "1.0", some [(["a.lua"], "x"), (["miss.lua"], "y")]⟩)]⟩)) ∧
    cacheOf (rmtreeCache "p" (remove_addon "p" ["R"]
      ⟨⟨[(["R", "a.lua"], "x")], [["R"]]⟩,
        [("p", ⟨some "1.0", some [(["a.lua"], "x"), (["miss.lua"], "y")]⟩)]⟩)) "p" =
      none ∧
    getFile (rmtreeCache "p" (remove_addon "p" ["R"]
      ⟨⟨[(["R", "a.lua"], "x")], [["R"]]⟩,
        [("p", ⟨some "1.0", some [(["a.lua"], "x"), (["miss.lua"], "y")]⟩)]⟩)).fs
      (["R"] ++ ["miss.lua"]) = none :=
  ⟨(c8_remove_complete "p" ["R"] ["p"]
      ⟨⟨[(["R", "a.lua"], "x")], [["R"]]⟩,
        [("p", ⟨some "1.0", some [(["a.lua"], "x"), (["miss.lua"], "y")]⟩)]⟩
      [(["a.lua"], "x"), (["miss.lua"], "y")] (by decide) (by decide)).1,
    (c8_remove_complete "p" ["R"] ["p"]
      ⟨⟨[(["R", "a.lua"], "x")], [["R"]]⟩,
        [("p", ⟨some "1.0", some [(["a.lua"], "x"), (["miss.lua"], "y")]⟩)]⟩
      [(["a.lua"], "x"), (["miss.lua"], "y")] (by decide) (by decide)).2.2.1,
    (c8_remove_complete "p" ["R"] ["p"]
      ⟨⟨[(["R", "a.lua"], "x")], [["R"]]⟩,
        [("p", ⟨some "1.0", some [(["a.lua"], "x"), (["miss.lua"], "y")]⟩)]⟩
      [(["a.lua"], "x"), (["miss.lua"], "y")] (by decide) (by decide)).2.1
      (["miss.lua"], "y") (by decide)⟩

/-- C9 counterexample: the claim that manifest existence is the sole
installedness criterion of the program's operations is false on the code.
First, a package whose manifest exists but which is absent from the
configured addon list is reported "not installed" and nothing is removed.
Second, for a tracked package with no cache directory, the remove
iteration raises (`shutil.rmtree` on a missing directory) — deleting the
persisted manifest of a package that has none is an error. -/
theorem c9_manifest_not_sole_criterion :
    removeStep "p" ["R"] []
      ⟨⟨[], [["R"]]⟩, [("p", ⟨some "1.0", some [(["a.lua"], "x")]⟩)]⟩ =
      .ok (.notInstalled, [],
        ⟨⟨[], [["R"]]⟩, [("p", ⟨some "1.0", some [(["a.lua"], "x")]⟩)]⟩) ∧
    removeStep "q" ["R"] ["q"] ⟨⟨[], [["R"]]⟩, []⟩ =
      .error ([], ⟨⟨[], [["R"]]⟩, []⟩) := by
  decide

/-- C9 (amended): the remove operation classifies a package as installed
by membership in the configured addon list, not by manifest existence: a
package absent from the config is reported not installed and left
untouched even when its manifest exists, and for a tracked package whose
cache directory does not exist the iteration raises an error after
removing nothing. -/
theorem c9_config_decides_installed (addon : String) (addons_dir : FPath)
    (cfg : List String) (st : PkgState) :
    (addon ∉ cfg → removeStep addon addons_dir cfg st = .ok (.notInstalled, cfg, st)) ∧
    (addon ∈ cfg → cacheOf st addon = none →
      removeStep addon addons_dir cfg st = .error (cfg.erase addon, st)) := by
  constructor
  · intro hnot
    simp only [removeStep]
    rw [if_neg hnot]
  · intro hmem hnone
    have hm0 : mtreeOf st addon = none := by
      rw [mtreeOf, hnone]
      rfl
    have hrm : remove_addon addon addons_dir st = st := by
      unfold remove_addon
      rw [hm0]
    simp only [removeStep]
    rw [if_pos hmem, hrm, hnone]

/-- Witness for C9 (amended): both branches at concrete states — an
untracked package with a manifest is skipped; a tracked one without a
cache directory raises. -/
theorem c9_config_decides_installed_witness :
    removeStep "p" ["R"] []
      ⟨⟨[], [["R"]]⟩, [("p", ⟨some "1.0", some [(["a.lua"], "x")]⟩)]⟩ =
      .ok (.notInstalled, [],
        ⟨⟨[], [["R"]]⟩, [("p", ⟨some "1.0", some [(["a.lua"], "x")]⟩)]⟩) ∧
    removeStep "q" ["R"] ["q"] ⟨⟨[], [["R"]]⟩, []⟩ =
      .error ([], ⟨⟨[], [["R"]]⟩, []⟩) :=
  ⟨(c9_config_decides_installed "p" ["R"] []
      ⟨⟨[], [["R"]]⟩, [("p", ⟨some "1.0", some [(["a.lua"], "x")]⟩)]⟩).1 (by decide),
    (c9_config_decides_installed "q" ["R"] ["q"] ⟨⟨[], [["R"]]⟩, []⟩).2
      (by decide) (by decide)⟩

/-- C10: the pruning step of `remove_addon` walks the entire install root
bottom-up: among the directories strictly below the install root, exactly
those that still contain some file (after the listed files were deleted)
survive — every empty directory is deleted, including empty directories
that never belonged to the removed package — and directories not strictly
below the install root are untouched. -/
theorem c10_prune_scope (addon : String) (addons_dir : FPath) (st : PkgState)
    (m : List (FPath × String)) (hm : mtreeOf st addon = some m)
    (hnd : st.fs.dirs.Nodup) :
    (∀ d : FPath, underB addons_dir d = true →
      (d ∈ (remove_addon addon addons_dir st).fs.dirs ↔
        d ∈ st.fs.dirs ∧
        ∃ f ∈ (remove_addon addon addons_dir st).fs.files, underB d f.1 = true)) ∧
    (∀ d : FPath, underB addons_dir d = false →
      (d ∈ (remove_addon addon addons_dir st).fs.dirs ↔ d ∈ st.fs.dirs)) := by
  have hfsEq : (remove_addon addon addons_dir st).fs =
      pruneDirs addons_dir
        (m.foldl (fun fs e => eraseFile fs (addons_dir ++ e.1)) st.fs) := by
    unfold remove_addon
    rw [hm]
  have hXdirs : (m.foldl (fun fs e => eraseFile fs (addons_dir ++ e.1)) st.fs).dirs =
      st.fs.dirs := dirs_foldl_erase _ _ _
  have hprune := pruneDirs_dirs addons_dir
    (m.foldl (fun fs e => eraseFile fs (addons_dir ++ e.1)) st.fs)
    (by rw [hXdirs]; exact hnd)
  constructor
  · intro d hund
    rw [hfsEq, files_pruneDirs, hprune, List.mem_filter, hXdirs]
    constructor
    · rintro ⟨hmem, hp⟩
      refine ⟨hmem, ?_⟩
      simp only [Bool.or_eq_true, Bool.not_eq_true'] at hp
      rcases hp with h1 | h2
      · rw [hund] at h1
        cases h1
      · exact List.any_eq_true.mp h2
    · rintro ⟨hmem, f, hf, hfu⟩
      refine ⟨hmem, ?_⟩
      simp only [Bool.or_eq_true, List.any_eq_true]
      exact Or.inr ⟨f, hf, hfu⟩
  · intro d hund
    rw [hfsEq, hprune, List.mem_filter, hXdirs]
    constructor
    · exact fun h => h.1
    · intro h
      refine ⟨h, ?_⟩
      simp [hund]

/-- Witness for C10: an empty directory unrelated to the removed package
is pruned, while a directory still holding a file survives. -/
theorem c10_prune_scope_witness :
    (["R", "Emptyd"] ∈ (remove_addon "p" ["R"]
      ⟨⟨[(["R", "Keep", "f.lua"], "x")], [["R"], ["R", "Emptyd"], ["R", "Keep"]]⟩,
        [("p", ⟨some "1.0", some [(["z.lua"], "h")]⟩)]⟩).fs.dirs ↔
      ["R", "Emptyd"] ∈
        (⟨⟨[(["R", "Keep", "f.lua"], "x")], [["R"], ["R", "Emptyd"], ["R", "Keep"]]⟩,
          [("p", ⟨some "1.0", some [(["z.lua"], "h")]⟩)]⟩ : PkgState).fs.dirs ∧
      ∃ f ∈ (remove_addon "p" ["R"]
        ⟨⟨[(["R", "Keep", "f.lua"], "x")], [["R"], ["R", "Emptyd"], ["R", "Keep"]]⟩,
          [("p", ⟨some "1.0", some [(["z.lua"], "h")]⟩)]⟩).fs.files,
        underB ["R", "Emptyd"] f.1 = true) :=
  (c10_prune_scope "p" ["R"]
    ⟨⟨[(["R", "Keep", "f.lua"], "x")], [["R"], ["R", "Emptyd"], ["R", "Keep"]]⟩,
      [("p", ⟨some "1.0", some [(["z.lua"], "h")]⟩)]⟩
    [(["z.lua"], "h")] (by decide) (by decide)).1 ["R", "Emptyd"] (by decide)

end Pywamgr
